import Mathlib

set_option linter.unusedVariables false
set_option linter.unusedTactic false
set_option linter.unreachableTactic false

/-!
Verification development for the DieAI inference / incremental-learning
subsystem: a shallow embedding of the tokenizer (`src/models/tokenizer.py`),
the sampling generator and inference engine (`src/models/inference.py`),
the causal-attention core (`src/models/transformer.py`) and the learning
service (`src/services/learning.py`), together with theorems settling the
testable properties stated for the system.

Texts are embedded as `List Char`, Python floats as `ℚ` (exact arithmetic)
except for the attention layer, whose softmax needs `Real.exp` and is
embedded over `ℝ`.
-/

namespace DieAI

/-- Python whitespace test for the ASCII characters that `\s`, `str.split()`
and `str.strip()` treat as whitespace: space and the control characters
`\t`, `\n`, `\x0b`, `\x0c`, `\r` (code points 9 to 13). -/
def isWS (c : Char) : Bool := c.toNat = 32 || (9 ≤ c.toNat && c.toNat ≤ 13)

/-- Lowercasing of one character as Python `str.lower` acts on ASCII
(`A`..`Z`, code points 65..90, are shifted by 32; all else unchanged). -/
def pyLowerChar (c : Char) : Char :=
  if 65 ≤ c.toNat ∧ c.toNat ≤ 90 then Char.ofNat (c.toNat + 32) else c

/-- Python `str.lower` on a character list. -/
def pyLower (s : List Char) : List Char := s.map pyLowerChar

/-- The punctuation class `[.,!?;:]` used by `DieAITokenizer.preprocess_text`
and by the spacing cleanup in `DieAITokenizer.decode`. -/
def isPunct (c : Char) : Bool :=
  c == '.' || c == ',' || c == '!' || c == '?' || c == ';' || c == ':'

/-- One pass of Python `str.split()` carrying the reversed current word. -/
def pysplitAux : List Char → List Char → List (List Char)
  | [], w => if w = [] then [] else [w.reverse]
  | c :: cs, w =>
    if isWS c then
      if w = [] then pysplitAux cs [] else w.reverse :: pysplitAux cs []
    else pysplitAux cs (c :: w)

/-- Python `str.split()` with no separator: split on maximal whitespace runs,
dropping empty pieces. -/
def pysplit (s : List Char) : List (List Char) := pysplitAux s []

/-- Python `' '.join` on a list of words. -/
def joinSp : List (List Char) → List Char
  | [] => []
  | [w] => w
  | w :: ws => w ++ ' ' :: joinSp ws

/-- The substitution `re.sub(r'([.,!?;:])', r' \1 ', text)` of
`preprocess_text`: every punctuation character is surrounded by spaces. -/
def padPunct : List Char → List Char
  | [] => []
  | c :: cs => if isPunct c then ' ' :: c :: ' ' :: padPunct cs else c :: padPunct cs

/-- One pass of `re.sub(r'\s+', ' ', text)` carrying a flag telling
whether the previous character was whitespace (then further whitespace is
swallowed into the same run). -/
def collapseWSAux : List Char → Bool → List Char
  | [], _ => []
  | c :: cs, prevWS =>
    if isWS c then
      if prevWS then collapseWSAux cs true else ' ' :: collapseWSAux cs true
    else c :: collapseWSAux cs false

/-- The substitution `re.sub(r'\s+', ' ', text)` of `preprocess_text`:
every maximal whitespace run becomes a single space. -/
def collapseWS (s : List Char) : List Char := collapseWSAux s false

/-- Python `str.strip()`: remove leading and trailing whitespace. -/
def pystrip (s : List Char) : List Char :=
  ((s.dropWhile isWS).reverse.dropWhile isWS).reverse

/-- `DieAITokenizer.preprocess_text`: lowercase, pad punctuation with spaces,
collapse whitespace runs, strip. -/
def preprocess_text (s : List Char) : List Char :=
  pystrip (collapseWS (padPunct (pyLower s)))

/-- Tokenizer state: the `vocab` dict (token string to id) and the
`inverse_vocab` dict (id to token string), embedded as association lists. -/
structure Tokenizer where
  vocab : List (List Char × Nat)
  inverse_vocab : List (Nat × List Char)
deriving DecidableEq

/-- The five reserved special tokens of `DieAITokenizer.__init__`. -/
def special_tokens : List (List Char × Nat) :=
  [("<PAD>".toList, 0), ("<UNK>".toList, 1), ("<BOS>".toList, 2),
   ("<EOS>".toList, 3), ("<MASK>".toList, 4)]

/-- A freshly constructed `DieAITokenizer`: both dicts hold exactly the
special tokens. -/
def default_tokenizer : Tokenizer :=
  ⟨special_tokens, special_tokens.map (fun p => (p.2, p.1))⟩

/-- Dictionary lookup `self.vocab.get(word)`. -/
def lookupWord (t : Tokenizer) (w : List Char) : Option Nat :=
  t.vocab.lookup w

/-- Dictionary lookup `self.inverse_vocab.get(token_id)`. -/
def lookupId (t : Tokenizer) (i : Nat) : Option (List Char) :=
  t.inverse_vocab.lookup i

/-- Membership test `token in self.special_tokens` used by `decode`. -/
def isSpecialTok (w : List Char) : Bool :=
  (special_tokens.lookup w).isSome

/-- Longest known leading substring of `s`: the inner loop of
`_handle_unknown_word` tries `word[i:j]` for `j` from `len(word)` down to
`i+1` and keeps the first hit.  Returns the matched length and its id. -/
def findLongestSub (t : Tokenizer) (s : List Char) : Option (Nat × Nat) :=
  (((List.range s.length).reverse).map (· + 1)).findSome?
    (fun j => (lookupWord t (s.take j)).map (fun i => (j, i)))

/-- `DieAITokenizer._handle_unknown_word`: greedily match the longest known
leading substring; emit `<UNK>` (id 1) and advance one character when
nothing matches. -/
def handle_unknown_word (t : Tokenizer) (s : List Char) : List Nat :=
  match h : findLongestSub t s with
  | some ji => ji.2 :: handle_unknown_word t (s.drop ji.1)
  | none =>
    match s with
    | [] => []
    | _ :: rest => 1 :: handle_unknown_word t rest
termination_by s.length
decreasing_by
  · obtain ⟨a, ha, hfa⟩ := List.exists_of_findSome?_eq_some h
    simp only [List.mem_map, List.mem_reverse, List.mem_range] at ha
    obtain ⟨x, hx, rfl⟩ := ha
    have h1 : 1 ≤ ji.1 := by
      rcases Option.map_eq_some'.mp hfa with ⟨i, _, hji⟩
      rw [← hji]
      omega
    have h2 : s.length ≠ 0 := by omega
    have := List.length_drop ji.1 s
    omega
  · simp

/-- `DieAITokenizer.encode`: preprocess, split into words, map known words
to their ids, fall back to subword handling for unknown words; `<BOS>` (2)
and `<EOS>` (3) wrap the result when `add_special_tokens` is set. -/
def encode (t : Tokenizer) (s : List Char) (addSpecial : Bool) : List Nat :=
  let ws := pysplit (preprocess_text s)
  let body := (ws.map (fun w =>
    match lookupWord t w with
    | some i => [i]
    | none => handle_unknown_word t w)).flatten
  (if addSpecial then [2] else []) ++ body ++ (if addSpecial then [3] else [])

/-- The substitution `re.sub(r' ([.,!?;:])', r'\1', text)` of
`DieAITokenizer.decode`: a space directly before a punctuation character is
removed (left-to-right, non-overlapping). -/
def cleanupPunct : List Char → List Char
  | [] => []
  | [c] => [c]
  | c :: d :: rest =>
    if c = ' ' ∧ isPunct d then d :: cleanupPunct rest
    else c :: cleanupPunct (d :: rest)

/-- `DieAITokenizer.decode`: look every id up in `inverse_vocab`, silently
dropping ids that are absent; optionally drop special tokens; join with
spaces and clean up punctuation spacing. -/
def decode (t : Tokenizer) (ids : List Nat) (skipSpecial : Bool) : List Char :=
  let toks := ids.filterMap (fun i =>
    match lookupId t i with
    | some tok => if skipSpecial && isSpecialTok tok then none else some tok
    | none => none)
  cleanupPunct (joinSp toks)

/-- Normal form of preprocessed text: every whitespace character is a
plain space, no two spaces are adjacent, and the text neither starts nor
ends with a space.  `preprocess_text` always produces text of this form,
on which splitting into words and re-joining with single spaces is the
identity. -/
def Normed (s : List Char) : Prop :=
  (∀ c ∈ s, isWS c = true → c = ' ') ∧
  List.Chain' (fun a b => ¬(a = ' ' ∧ b = ' ')) s ∧
  (∀ h ∈ s.head?, h ≠ ' ') ∧ (∀ h ∈ s.getLast?, h ≠ ' ')

/-- Well-formedness of the pair of dicts maintained by `DieAITokenizer`:
every `vocab` entry is mirrored in `inverse_vocab`.  The class constructor,
`build_vocab_from_corpus` and `load_vocab` all establish this. -/
def TokWF (t : Tokenizer) : Prop :=
  ∀ p ∈ t.vocab, lookupId t p.2 = some p.1

/-- A small concrete tokenizer whose vocabulary holds the five special
tokens plus the regular words `hi` (id 5) and `,` (id 6). -/
def tok0 : Tokenizer :=
  ⟨special_tokens ++ [("hi".toList, 5), (",".toList, 6)],
   special_tokens.map (fun p => (p.2, p.1)) ++ [(5, "hi".toList), (6, ",".toList)]⟩

/-! ### Sampling generator (`InferenceEngine._advanced_generate`)

Python floats are embedded as exact rationals; `F.softmax` is parametrised
by an abstract exponential `e : ℚ → ℚ` (the proofs only use that `Real.exp`
is strictly positive); `-inf` entries of the logit tensor are embedded as
`none : Option ℚ`; `torch.multinomial` is embedded by its support: any
index of strictly positive probability can be drawn. -/

/-- The per-token repetition-penalty update: multiply a negative logit by
the penalty, divide a non-negative one (`inference.py` lines 177-181). -/
def repPenaltyVal (p x : ℚ) : ℚ := if x < 0 then x * p else x / p

/-- The repetition-penalty loop over `past_tokens`, guarded by
`repetition_penalty != 1.0`.  Iteration order over the Python set is
irrelevant: each index is written at most once. -/
def apply_repetition_penalty (p : ℚ) (past_tokens : List Nat) (logits : List ℚ) : List ℚ :=
  if p = 1 then logits
  else past_tokens.foldl (fun l t => l.set t (repPenaltyVal p (l.getD t 0))) logits

/-- Division of the last-position logits by the temperature. -/
def scaleTemp (temperature : ℚ) (logits : List ℚ) : List ℚ :=
  logits.map (fun x => x / temperature)

/-- Top-k filtering: entries strictly below the k-th largest value become
`-inf` (`none`).  An entry is strictly below the k-th largest value of the
list exactly when at least `k` entries exceed it strictly, which is how
`torch.topk` plus `next_token_logits < values[:, -1, None]` is embedded. -/
def topkFilter (top_k : Nat) (l : List ℚ) : List (Option ℚ) :=
  if top_k = 0 then l.map some
  else l.map (fun x => if top_k ≤ l.countP (fun y => decide (x < y)) then none else some x)

/-- Probability weight of one (possibly `-inf`) logit under the abstract
exponential: `exp(-inf) = 0`. -/
def elimProb (e : ℚ → ℚ) : Option ℚ → ℚ
  | none => 0
  | some x => e x

/-- Row softmax over possibly `-inf` logits. -/
def softmaxO (e : ℚ → ℚ) (l : List (Option ℚ)) : List ℚ :=
  l.map (fun x => elimProb e x / (l.map (elimProb e)).sum)

/-- Strict order on possibly `-inf` logits (`none` is below everything). -/
def optLtB : Option ℚ → Option ℚ → Bool
  | none, some _ => true
  | some x, some y => decide (x < y)
  | _, none => false

/-- Position `j` sits strictly before position `i` in the descending sort
of `torch.sort(..., descending=True)`, ties resolved by index. -/
def sortedBeforeB (l : List (Option ℚ)) (j i : Nat) : Bool :=
  optLtB (l.getD i none) (l.getD j none) ||
    (decide (l.getD j none = l.getD i none) && decide (j < i))

/-- Top-p (nucleus) filtering, guarded by `top_p < 1.0`: after sorting
descending and taking the cumulative softmax, the removal mask is shifted
right by one (the best entry always survives), so a position is removed
exactly when the probabilities of the positions sorted strictly before it
already sum above `top_p`. -/
def topPFilter (e : ℚ → ℚ) (top_p : ℚ) (l : List (Option ℚ)) : List (Option ℚ) :=
  if 1 ≤ top_p then l
  else
    let pr := softmaxO e l
    let beforeIdx := fun i => (List.range l.length).filter (fun j => sortedBeforeB l j i)
    l.mapIdx (fun i x =>
      if beforeIdx i ≠ [] ∧ top_p < ((beforeIdx i).map (fun j => pr.getD j 0)).sum
      then none else x)

/-- The generation parameters of `InferenceEngine._advanced_generate`. -/
structure GenParams where
  temperature : ℚ
  top_k : Nat
  top_p : ℚ
  repetition_penalty : ℚ
  max_length : Nat
  eos_id : Nat
deriving DecidableEq

/-- The temperature-scaled, repetition-penalised last-position logits for
the current sequence (`M` is the model, giving last-position logits). -/
def penalizedLogits (P : GenParams) (M : List Nat → List ℚ) (gen past : List Nat) : List ℚ :=
  apply_repetition_penalty P.repetition_penalty past (scaleTemp P.temperature (M gen))

/-- The probability vector handed to `torch.multinomial` in one loop
iteration. -/
def stepProbs (e : ℚ → ℚ) (P : GenParams) (M : List Nat → List ℚ)
    (gen past : List Nat) : List ℚ :=
  softmaxO e (topPFilter e P.top_p (topkFilter P.top_k (penalizedLogits P M gen past)))

/-- `torch.multinomial` can return any index of positive probability. -/
def Possible (e : ℚ → ℚ) (P : GenParams) (M : List Nat → List ℚ)
    (gen past : List Nat) (t : Nat) : Prop :=
  0 < (stepProbs e P M gen past).getD t 0

/-- `past_tokens.add(next_token.item())` on the Python set. -/
def pastAdd (past : List Nat) (t : Nat) : List Nat :=
  if t ∈ past then past else past ++ [t]

/-- One complete run of the `_advanced_generate` loop, as a relation from
the starting state (remaining iterations, sequence so far, emitted-token
set) to the returned sequence: per iteration a possible token is sampled;
`EOS` stops before appending; reaching `max_length` stops after appending;
otherwise the loop continues on the extended state. -/
inductive Gen (e : ℚ → ℚ) (P : GenParams) (M : List Nat → List ℚ) :
    Nat → List Nat → List Nat → List Nat → Prop where
  | fuel_out (gen past : List Nat) : Gen e P M 0 gen past gen
  | eos_stop (f : Nat) (gen past : List Nat) (t : Nat) :
      Possible e P M gen past t → t = P.eos_id → Gen e P M (f + 1) gen past gen
  | len_stop (f : Nat) (gen past : List Nat) (t : Nat) :
      Possible e P M gen past t → t ≠ P.eos_id → P.max_length ≤ gen.length + 1 →
      Gen e P M (f + 1) gen past (gen ++ [t])
  | next (f : Nat) (gen past : List Nat) (t : Nat) (out : List Nat) :
      Possible e P M gen past t → t ≠ P.eos_id → gen.length + 1 < P.max_length →
      Gen e P M f (gen ++ [t]) (pastAdd past t) out → Gen e P M (f + 1) gen past out

/-- Index of the (first) maximal entry of a logit list. -/
def argmaxIdx : List ℚ → Nat
  | [] => 0
  | [_] => 0
  | x :: y :: r =>
    if x < (y :: r).getD (argmaxIdx (y :: r)) 0 then argmaxIdx (y :: r) + 1 else 0

/-- Greedy argmax decoding with the same stopping rules as the sampling
loop: the reference the spec compares `top_k = 1` generation against. -/
def greedyGen (P : GenParams) (M : List Nat → List ℚ) :
    Nat → List Nat → List Nat → List Nat
  | 0, gen, _ => gen
  | f + 1, gen, past =>
    let t := argmaxIdx (penalizedLogits P M gen past)
    if t = P.eos_id then gen
    else if P.max_length ≤ gen.length + 1 then gen ++ [t]
    else greedyGen P M f (gen ++ [t]) (pastAdd past t)

/-- The penalised logits have a unique maximum at index `i`. -/
def UniqueMax (l : List ℚ) (i : Nat) : Prop :=
  i < l.length ∧ ∀ j, j < l.length → j ≠ i → l.getD j 0 < l.getD i 0

/-- A concrete positive stand-in for the softmax exponential. -/
def eConstOne : ℚ → ℚ := fun _ => 1

/-- A concrete model over a four-token vocabulary: constant logits. -/
def M0 : List Nat → List ℚ := fun _ => [0, 5, 1, 2]

/-- Concrete generation parameters: temperature 1, `top_k = 1`,
`top_p = 0.95`, repetition penalty 1.1, `max_length = 2`, `EOS` id 3. -/
def P0 : GenParams := ⟨1, 1, 19/20, 11/10, 2, 3⟩

/-! ### Learning service (`src/services/learning.py`) -/

/-- The apostrophe character. -/
def apoc : Char := Char.ofNat 39

/-- Python builtin `max` on two floats. -/
def pymax (a b : ℚ) : ℚ := if a ≤ b then b else a

/-- Python builtin `min` on two floats. -/
def pymin (a b : ℚ) : ℚ := if b ≤ a then b else a

/-- The three stock refusals penalised by `LearningService._assess_quality`. -/
def refusal_responses : List (List Char) :=
  ["i don".toList ++ apoc :: "t know".toList, "sorry".toList, "error".toList]

/-- `LearningService._assess_quality`: additive score around 1.0, clamped
to `[0, 2]`: minus 0.3 for fewer than 3 words, minus 0.4 for a stock
refusal, plus 0.2 for more than 20 words, plus 0.1 for a terminal
`.`, `!` or `?`. -/
def assess_quality (user_message ai_response : List Char) : ℚ :=
  let w := pysplit ai_response
  let s1 : ℚ := if w.length < 3 then 1 - 3/10 else 1
  let s2 : ℚ := if pyLower ai_response ∈ refusal_responses then s1 - 4/10 else s1
  let s3 : ℚ := if 20 < w.length then s2 + 2/10 else s2
  let s4 : ℚ :=
    if ai_response.getLast? = some '.' ∨ ai_response.getLast? = some '!' ∨
       ai_response.getLast? = some '?'
    then s3 + 1/10 else s3
  pymax 0 (pymin 2 s4)

/-- A row of the `learning_data` table as the learning loop sees it. -/
structure LearningExample where
  input_text : List Char
  target_text : List Char
  source : List Char
  quality_score : ℚ
  used_for_training : Bool
deriving DecidableEq

/-- `DatabaseManager.get_learning_data`: unconsumed rows of quality at
least `min_quality`, at most `limit` of them.  The `ORDER BY` clause only
permutes the rows and is omitted; the properties proved here depend only
on how many rows are fetched. -/
def get_learning_data (db : List LearningExample) (limit : Nat) (min_quality : ℚ) :
    List LearningExample :=
  (db.filter (fun ex => !ex.used_for_training && decide (min_quality ≤ ex.quality_score))).take
    limit

/-- `LearningService.learning_threshold` (default 50). -/
def learning_threshold : Nat := 50

/-- One poll of `LearningService._learning_loop` after its sleep: with the
guard `not self.is_learning`, fetch `get_learning_data(limit=1000)` (with
its default `min_quality=1.0`) and fire incremental training when at least
`learning_threshold` rows came back. -/
def learning_loop_fires (is_learning : Bool) (db : List LearningExample) : Bool :=
  !is_learning && decide (learning_threshold ≤ (get_learning_data db 1000 1).length)

/-- An unconsumed conversation example of the given quality score. -/
def mkEx (q : ℚ) : LearningExample :=
  ⟨"q".toList, "a".toList, "conversation".toList, q, false⟩

/-- Fifty pending examples of quality 0.8 (reachable: a two-word reply
ending in a period scores exactly 0.8 and is stored, being above 0.5). -/
def db50low : List LearningExample := List.replicate 50 (mkEx (4/5))

/-- Fifty pending examples of quality 1. -/
def db50 : List LearningExample := List.replicate 50 (mkEx 1)

/-- Forty-nine pending examples of quality 1. -/
def db49 : List LearningExample := List.replicate 49 (mkEx 1)

/-- Outcome of a Python sub-step that either succeeds or raises. -/
inductive PyStep where
  | ok : PyStep
  | exn : List Char → PyStep
deriving DecidableEq

/-- How a call to `_perform_incremental_learning` ended. -/
inductive LearnOutcome where
  | skipped : LearnOutcome
  | earlyReturn : LearnOutcome
  | caught : List Char → LearnOutcome
  | completed : LearnOutcome
deriving DecidableEq

/-- `LearningService._perform_incremental_learning` as a function of the
entry value of `is_learning` and of the behaviour of its fallible
sub-steps, returning the exit value of `is_learning` and the path taken.
The body sets the flag, then runs under `try/except Exception/finally`
with the `finally` clause clearing the flag: tokenizer loading may raise
(caught by the outer handler); model loading may raise (its inner handler
logs and returns) or find no model (return); the vocabulary update, the
training run and the marking of consumed rows may each raise (caught). -/
def perform_incremental_learning (is_learning : Bool)
    (loadVocabStep loadModelStep : PyStep) (modelFound : Bool)
    (vocabUpdateStep trainStep markUsedStep : PyStep) : Bool × LearnOutcome :=
  if is_learning then (is_learning, LearnOutcome.skipped)
  else
    match loadVocabStep with
    | PyStep.exn m => (false, LearnOutcome.caught m)
    | PyStep.ok =>
      match loadModelStep with
      | PyStep.exn _ => (false, LearnOutcome.earlyReturn)
      | PyStep.ok =>
        if modelFound = false then (false, LearnOutcome.earlyReturn)
        else
          match vocabUpdateStep with
          | PyStep.exn m => (false, LearnOutcome.caught m)
          | PyStep.ok =>
            match trainStep with
            | PyStep.exn m => (false, LearnOutcome.caught m)
            | PyStep.ok =>
              match markUsedStep with
              | PyStep.exn m => (false, LearnOutcome.caught m)
              | PyStep.ok => (false, LearnOutcome.completed)

/-! ### Inference engine (`src/models/inference.py`) -/

/-- One entry of `self.conversation_history`. -/
structure HistEntry where
  prompt : List Char
  response : List Char
  timestamp : Nat
deriving DecidableEq

/-- `InferenceEngine._update_conversation_history`: append, then keep only
the last `max_history_length` entries. -/
def update_conversation_history (max_history_length : Nat)
    (h : List HistEntry) (e : HistEntry) : List HistEntry :=
  let h2 := h ++ [e]
  if max_history_length < h2.length then h2.drop (h2.length - max_history_length) else h2

/-- Six concrete history entries. -/
def es6 : List HistEntry :=
  [⟨"p1".toList, "r1".toList, 1⟩, ⟨"p2".toList, "r2".toList, 2⟩,
   ⟨"p3".toList, "r3".toList, 3⟩, ⟨"p4".toList, "r4".toList, 4⟩,
   ⟨"p5".toList, "r5".toList, 5⟩, ⟨"p6".toList, "r6".toList, 6⟩]

/-- Python substring membership `needle in hay`. -/
def pyIn (needle hay : List Char) : Bool :=
  (List.range (hay.length + 1)).any (fun i => needle.isPrefixOf (hay.drop i))

/-- `random.choice` with the random draw made explicit. -/
def pyChoice (pick : Nat) (l : List (List Char)) : List Char :=
  l.getD (pick % l.length) []

/-- Canned reply for greetings. -/
def fb_greeting : List Char :=
  "Hello! I".toList ++ apoc ::
    "m DieAI, your AI assistant. How can I help you today?".toList

/-- Canned reply for help requests. -/
def fb_help : List Char :=
  "I".toList ++ apoc ::
    "m here to help! I can answer questions, provide information, and assist with various tasks. What would you like to know?".toList

/-- First canned reply for question words. -/
def fb_q1 : List Char :=
  "That".toList ++ apoc :: "s an interesting question! I".toList ++ apoc ::
    "d be happy to help you explore that topic.".toList

/-- Second canned reply for question words. -/
def fb_q2 : List Char :=
  "I understand you".toList ++ apoc ::
    "re looking for information about that. Let me help you.".toList

/-- Third canned reply for question words. -/
def fb_q3 : List Char :=
  "That".toList ++ apoc :: "s a great question! I".toList ++ apoc ::
    "ll do my best to provide you with helpful information.".toList

/-- Fourth canned reply for question words. -/
def fb_q4 : List Char := "I can help you with that! Let me share what I know.".toList

/-- Canned reply for AI-related keywords. -/
def fb_ai : List Char :=
  "I".toList ++ apoc ::
    "m a custom transformer-based AI model called DieAI. I use advanced neural networks to understand and generate human-like text responses. Is there something specific about AI or transformers you".toList
    ++ apoc :: "d like to know?".toList

/-- Canned reply for search keywords. -/
def fb_search : List Char :=
  "I can help you search for information! My search capabilities allow me to find relevant information on the web. What would you like me to search for?".toList

/-- Canned reply for API keywords. -/
def fb_api : List Char :=
  "I provide API access for developers! You can generate API keys from your dashboard and use them to integrate my capabilities into your applications. Would you like to know more about the API features?".toList

/-- Canned reply for thanks. -/
def fb_thanks : List Char :=
  "You".toList ++ apoc :: "re welcome! I".toList ++ apoc ::
    "m glad I could help. Feel free to ask me anything else!".toList

/-- Canned reply for goodbyes. -/
def fb_bye : List Char :=
  "Goodbye! Thank you for using DieAI. Have a great day!".toList

/-- First default canned reply. -/
def fb_d1 : List Char :=
  "I understand you".toList ++ apoc ::
    "re asking about that. While my full model is still being trained, I can still help you with many questions and tasks.".toList

/-- Second default canned reply. -/
def fb_d2 : List Char :=
  "That".toList ++ apoc :: "s an interesting topic! I".toList ++ apoc ::
    "m continuously learning and improving my responses. What specific aspect would you like to explore?".toList

/-- Third default canned reply. -/
def fb_d3 : List Char :=
  "I appreciate your question! My knowledge spans many topics, and I".toList ++ apoc ::
    "m here to help you find the information you need.".toList

/-- Fourth default canned reply. -/
def fb_d4 : List Char :=
  "Thank you for your question! I".toList ++ apoc ::
    "m designed to be helpful and informative. Is there a particular way I can assist you better?".toList

/-- Fifth default canned reply. -/
def fb_d5 : List Char :=
  "I".toList ++ apoc :: "m here to help! While I".toList ++ apoc ::
    "m still developing my full capabilities, I can provide useful information and assistance on many topics.".toList

/-- Every reply `_generate_fallback_response` can produce. -/
def fallback_response_pool : List (List Char) :=
  [fb_greeting, fb_help, fb_q1, fb_q2, fb_q3, fb_q4, fb_ai, fb_search, fb_api,
   fb_thanks, fb_bye, fb_d1, fb_d2, fb_d3, fb_d4, fb_d5]

/-- `InferenceEngine._generate_fallback_response`: the rule-based keyword
dispatch over the lowercased prompt, with `random.choice` made explicit. -/
def generate_fallback_response (pick : Nat) (prompt : List Char) : List Char :=
  let pl := pyLower prompt
  if ["hello".toList, "hi".toList, "hey".toList].any (fun k => pyIn k pl) then fb_greeting
  else if ["help".toList, "assist".toList, "support".toList].any (fun k => pyIn k pl) then
    fb_help
  else if ["what".toList, "how".toList, "why".toList, "when".toList,
      "where".toList].any (fun k => pyIn k pl) then
    pyChoice pick [fb_q1, fb_q2, fb_q3, fb_q4]
  else if ["transformer".toList, "ai".toList, "model".toList, "neural".toList,
      "machine learning".toList].any (fun k => pyIn k pl) then
    fb_ai
  else if ["search".toList, "find".toList, "look up".toList].any (fun k => pyIn k pl) then
    fb_search
  else if ["api".toList, "key".toList, "endpoint".toList].any (fun k => pyIn k pl) then
    fb_api
  else if ["thank".toList, "thanks".toList].any (fun k => pyIn k pl) then fb_thanks
  else if ["goodbye".toList, "bye".toList, "see you".toList].any (fun k => pyIn k pl) then
    fb_bye
  else pyChoice pick [fb_d1, fb_d2, fb_d3, fb_d4, fb_d5]

/-- The apologetic message of the `except` handler of `generate_response`. -/
def apology (e : List Char) : List Char :=
  "I apologize, but I encountered an error while generating a response: ".toList ++ e

/-- `InferenceEngine.generate_response`: fall back to the rule-based
responder when model or tokenizer is missing; otherwise run the body
(prompt assembly, generation, post-processing, history update — abstracted
as one fallible computation, any exception of which is caught) and return
its value, or the apologetic message built from the caught exception. -/
def generate_response (modelLoaded tokenizerLoaded : Bool)
    (body : Except (List Char) (List Char)) (pick : Nat) (prompt : List Char) : List Char :=
  if modelLoaded = false ∨ tokenizerLoaded = false then
    generate_fallback_response pick prompt
  else
    match body with
    | Except.ok r => r
    | Except.error e => apology e

/-! ### Causal attention (`src/models/transformer.py`)

The attention layer is embedded over `ℝ` (the idealisation of the float
tensors), specialised to batch 1, `n_heads = 1`, `d_model = d_k = 1`,
where the multi-head reshapes are identities; dropout is the identity in
`eval()` mode.  The mask values themselves are 0/1 flags and stay in `ℚ`
so the `masked_fill(mask == 0, -1e9)` test is decidable. -/

/-- `DieAITransformer.create_causal_mask`: `torch.tril(torch.ones(size, size))`,
read at entry `(i, j)` for `i, j < size`. -/
def create_causal_mask (size i j : Nat) : ℚ :=
  if i < size ∧ j < size ∧ j ≤ i then 1 else 0

/-- Parameters of the four 1-dimensional linear layers of
`MultiHeadAttention` (weight and bias of `w_q`, `w_k`, `w_v`, `w_o`). -/
structure AttnParams where
  wq : ℝ
  bq : ℝ
  wk : ℝ
  bk : ℝ
  wv : ℝ
  bv : ℝ
  wo : ℝ
  bo : ℝ

/-- Row softmax (`F.softmax(scores, dim=-1)`). -/
noncomputable def softmaxRow (r : List ℝ) : List ℝ :=
  r.map (fun x => Real.exp x / (r.map Real.exp).sum)

/-- Row `i` of the masked attention scores: `Q_i · K_j / sqrt(d_k)` with
entries at mask value 0 filled with `-1e9`. -/
noncomputable def scoresRow (W : AttnParams) (xs : List ℝ) (i : Nat) : List ℝ :=
  (List.range xs.length).map (fun j =>
    if create_causal_mask xs.length i j = 0 then -(10 ^ 9 : ℝ)
    else (W.wq * xs.getD i 0 + W.bq) * (W.wk * xs.getD j 0 + W.bk) / Real.sqrt 1)

/-- The value projection `w_v` applied to every position. -/
noncomputable def attnValues (W : AttnParams) (xs : List ℝ) : List ℝ :=
  xs.map (fun x => W.wv * x + W.bv)

/-- Output of `MultiHeadAttention.forward` at position `i` under the
causal mask: softmax row times values, then the output projection. -/
noncomputable def attn_out (W : AttnParams) (xs : List ℝ) (i : Nat) : ℝ :=
  W.wo * (((softmaxRow (scoresRow W xs i)).zip (attnValues W xs)).map
    (fun p => p.1 * p.2)).sum + W.bo

/-- Modelled from the spec sentence that masking zeroes the contribution
of future positions: attention at position `i` ranges over positions
`0..i` only, so masked positions carry weight exactly zero.  This is the
idealised `-inf` mask the spec describes, to be compared with `attn_out`,
which embeds the implemented `-1e9` fill. -/
noncomputable def attn_out_causal (W : AttnParams) (xs : List ℝ) (i : Nat) : ℝ :=
  let pre := xs.take (i + 1)
  let row := (List.range pre.length).map (fun j =>
    (W.wq * xs.getD i 0 + W.bq) * (W.wk * pre.getD j 0 + W.bk) / Real.sqrt 1)
  W.wo * (((softmaxRow row).zip (attnValues W pre)).map (fun p => p.1 * p.2)).sum + W.bo

/-- Identity weights, zero biases. -/
noncomputable def W0 : AttnParams := ⟨1, 0, 1, 0, 1, 0, 1, 0⟩

/-! ## Theorems -/

/-- Bridge between `getD` and `getElem` at an in-range index. -/
theorem getD_of_lt {α : Type} (l : List α) (d : α) {n : Nat} (h : n < l.length) :
    l.getD n d = l[n] := by
  rw [List.getD_eq_getElem?_getD, List.getElem?_eq_getElem h, Option.getD_some]

/-- C10: however the fallible sub-steps behave, a call of
`_perform_incremental_learning` entered with `is_learning` false exits
with `is_learning` false again: the `finally` clause runs on both early
returns and on caught exceptions, so one failed incremental run never
blocks future training cycles. -/
theorem c10_is_learning_restored (s1 s2 : PyStep) (mf : Bool) (s3 s4 s5 : PyStep) :
    (perform_incremental_learning false s1 s2 mf s3 s4 s5).1 = false := by
  cases s1 <;> cases s2 <;> cases mf <;> cases s3 <;> cases s4 <;> cases s5 <;> rfl

/-- Folding the history update keeps the last `m` entries of everything
appended so far. -/
theorem foldl_update_history (m : Nat) :
    ∀ (es : List HistEntry) (h0 : List HistEntry), h0.length ≤ m →
      es.foldl (update_conversation_history m) h0 =
        (h0 ++ es).drop ((h0 ++ es).length - m) := by
  intro es
  induction es with
  | nil =>
    intro h0 hle
    simp [Nat.sub_eq_zero_of_le hle]
  | cons e rest ih =>
    intro h0 hle
    rw [List.foldl_cons]
    by_cases hc : m < h0.length + 1
    · have h1 : update_conversation_history m h0 e = (h0 ++ [e]).drop (h0.length + 1 - m) := by
        simp only [update_conversation_history, List.length_append, List.length_cons,
          List.length_nil]
        rw [if_pos (by omega)]
      have hk : h0.length + 1 - m ≤ (h0 ++ [e]).length := by
        simp only [List.length_append, List.length_cons, List.length_nil]
        omega
      rw [h1, ih _ (by simp [List.length_drop]; omega)]
      rw [← List.drop_append_of_le_length hk, List.drop_drop]
      have hasc : (h0 ++ [e]) ++ rest = h0 ++ e :: rest := by simp
      rw [hasc]
      congr 1
      simp only [List.length_drop, List.length_append, List.length_cons, List.length_nil]
      omega
    · have h1 : update_conversation_history m h0 e = h0 ++ [e] := by
        simp only [update_conversation_history, List.length_append, List.length_cons,
          List.length_nil]
        rw [if_neg (by omega)]
      rw [h1, ih _ (by simp only [List.length_append, List.length_cons, List.length_nil]; omega)]
      have hasc : (h0 ++ [e]) ++ rest = h0 ++ e :: rest := by simp
      rw [hasc]

/-- C8: after more than 5 successful updates starting from an empty
history with `max_history_length = 5`, the history holds exactly the 5
most recent entries in order: a FIFO of capacity 5. -/
theorem c8_conversation_history_fifo (es : List HistEntry) (h : 5 < es.length) :
    es.foldl (update_conversation_history 5) [] = es.drop (es.length - 5) ∧
    (es.foldl (update_conversation_history 5) []).length = 5 := by
  have h1 := foldl_update_history 5 es [] (by simp)
  simp only [List.nil_append] at h1
  refine ⟨h1, ?_⟩
  rw [h1, List.length_drop]
  omega

/-- Witness for C8 at six concrete entries. -/
theorem c8_witness :
    5 < es6.length ∧
    (es6.foldl (update_conversation_history 5) [] = es6.drop (es6.length - 5) ∧
     (es6.foldl (update_conversation_history 5) []).length = 5) :=
  ⟨by decide, c8_conversation_history_fifo es6 (by decide)⟩

/-- C3 (amended): an id absent from `inverse_vocab` is silently skipped by
`decode` — appending it to any id list leaves the decoded text unchanged,
and no error of any kind is signalled. -/
theorem c3_decode_skips_invalid (t : Tokenizer) (ids : List Nat) (i : Nat) (skip : Bool)
    (h : lookupId t i = none) :
    decode t (ids ++ [i]) skip = decode t ids skip := by
  simp only [decode]
  rw [List.filterMap_append]
  simp [h]

/-- C3 (counterexample to the claim as stated): decoding the out-of-range
id 999 on a fresh tokenizer returns normally with the empty string; no
`InvalidTokenId` (nor any other error path) exists in `decode`. -/
theorem c3_counterexample :
    decode default_tokenizer [999] true = [] ∧ lookupId default_tokenizer 999 = none := by
  constructor
  · decide
  · decide

/-- Witness for the amended C3. -/
theorem c3_witness :
    lookupId default_tokenizer 999 = none ∧
    decode default_tokenizer ([2] ++ [999]) true = decode default_tokenizer [2] true :=
  ⟨by decide, c3_decode_skips_invalid default_tokenizer [2] 999 true (by decide)⟩

/-- Indices not in the penalty set are untouched by the penalty fold. -/
theorem foldl_set_penalty_notmem (p : ℚ) :
    ∀ (past : List Nat) (l : List ℚ) (t : Nat), t ∉ past →
      (past.foldl (fun l u => l.set u (repPenaltyVal p (l.getD u 0))) l).getD t 0 =
        l.getD t 0 := by
  intro past
  induction past with
  | nil => intro l t _; rfl
  | cons a rest ih =>
    intro l t ht
    rw [List.foldl_cons]
    rw [ih _ _ (fun hmem => ht (List.mem_cons_of_mem a hmem))]
    have hne : a ≠ t := fun hEq => ht (hEq ▸ List.mem_cons_self a rest)
    rw [List.getD_eq_getElem?_getD, List.getElem?_set_ne hne, ← List.getD_eq_getElem?_getD]

/-- An index of the penalty set receives exactly one penalty update. -/
theorem foldl_set_penalty_mem (p : ℚ) :
    ∀ (past : List Nat) (l : List ℚ) (t : Nat), past.Nodup → t ∈ past → t < l.length →
      (past.foldl (fun l u => l.set u (repPenaltyVal p (l.getD u 0))) l).getD t 0 =
        repPenaltyVal p (l.getD t 0) := by
  intro past
  induction past with
  | nil => intro l t _ ht; cases ht
  | cons a rest ih =>
    intro l t hnd ht hlen
    rw [List.foldl_cons]
    rcases List.mem_cons.mp ht with rfl | hmem
    · have hnot : t ∉ rest := (List.nodup_cons.mp hnd).1
      rw [foldl_set_penalty_notmem p rest _ t hnot]
      rw [List.getD_eq_getElem?_getD, List.getElem?_set_self hlen, Option.getD_some]
    · have hne : a ≠ t := by
        rintro rfl
        exact (List.nodup_cons.mp hnd).1 hmem
      have h2 : (l.set a (repPenaltyVal p (l.getD a 0))).getD t 0 = l.getD t 0 := by
        rw [List.getD_eq_getElem?_getD, List.getElem?_set_ne hne, ← List.getD_eq_getElem?_getD]
      rw [ih _ _ (List.nodup_cons.mp hnd).2 hmem (by rw [List.length_set]; exact hlen), h2]

/-- C4: for every previously emitted token, the temperature-scaled logit
is multiplied by the penalty when negative and divided by it otherwise;
with penalty 1.1 a logit of -2 becomes -2.2 and a logit of 2 becomes
20/11 (about 1.818). -/
theorem c4_repetition_penalty_rule :
    (∀ (p temp : ℚ) (past : List Nat) (logits : List ℚ) (t : Nat),
        past.Nodup → t ∈ past → t < logits.length →
        (apply_repetition_penalty p past (scaleTemp temp logits)).getD t 0 =
          repPenaltyVal p (logits.getD t 0 / temp)) ∧
    repPenaltyVal (11/10) (-2) = -11/5 ∧ repPenaltyVal (11/10) 2 = 20/11 := by
  refine ⟨?_, by norm_num [repPenaltyVal], by norm_num [repPenaltyVal]⟩
  intro p temp past logits t hnd ht hlen
  have hlen2 : t < (scaleTemp temp logits).length := by
    simpa [scaleTemp] using hlen
  have hget : (scaleTemp temp logits).getD t 0 = logits.getD t 0 / temp := by
    rw [getD_of_lt _ _ hlen2, getD_of_lt _ _ hlen]
    simp [scaleTemp]
  by_cases hp : p = 1
  · subst hp
    rw [apply_repetition_penalty, if_pos rfl, hget, repPenaltyVal]
    split <;> simp
  · rw [apply_repetition_penalty, if_neg hp,
      foldl_set_penalty_mem p past _ t hnd ht hlen2, hget]

/-- Witness for C4 at penalty 1.1, temperature 1, logits `[-2, 2]`. -/
theorem c4_witness :
    ([1].Nodup ∧ 1 ∈ [1] ∧ 1 < [(-2 : ℚ), 2].length) ∧
    (apply_repetition_penalty (11/10) [1] (scaleTemp 1 [(-2 : ℚ), 2])).getD 1 0 =
      repPenaltyVal (11/10) ([(-2 : ℚ), 2].getD 1 0 / 1) :=
  ⟨⟨by decide, by decide, by decide⟩,
   c4_repetition_penalty_rule.1 (11/10) 1 [1] [(-2 : ℚ), 2] 1 (by decide) (by decide) (by decide)⟩

/-- C7 (amended): one poll of the learning loop with no training active
fires incremental training exactly when at least `learning_threshold`
(50) pending rows of quality at least 1.0 exist — the fetch filters on
its default `min_quality = 1.0`, and its 1000-row cap cannot mask the
threshold test since the threshold is below the cap; it fires with
exactly 50 such rows and not with 49. -/
theorem c7_threshold_amended :
    (∀ db : List LearningExample,
        learning_loop_fires false db = true ↔
          learning_threshold ≤
            db.countP (fun ex => !ex.used_for_training && decide ((1:ℚ) ≤ ex.quality_score))) ∧
    learning_loop_fires false db50 = true ∧ learning_loop_fires false db49 = false := by
  refine ⟨?_, ?_, ?_⟩
  · intro db
    simp only [learning_loop_fires, get_learning_data, Bool.not_false, Bool.true_and,
      decide_eq_true_eq, List.length_take, List.countP_eq_length_filter]
    rw [le_min_iff]
    constructor
    · rintro ⟨-, h⟩; exact h
    · intro h; exact ⟨by norm_num [learning_threshold], h⟩
  · have hcond : (!(mkEx 1).used_for_training && decide ((1:ℚ) ≤ (mkEx 1).quality_score)) = true := by
      norm_num [mkEx]
    simp [learning_loop_fires, get_learning_data, db50, List.filter_replicate, hcond,
      List.take_replicate, learning_threshold]
  · have hcond : (!(mkEx 1).used_for_training && decide ((1:ℚ) ≤ (mkEx 1).quality_score)) = true := by
      norm_num [mkEx]
    simp [learning_loop_fires, get_learning_data, db49, List.filter_replicate, hcond,
      List.take_replicate, learning_threshold]

/-- C7 (counterexample to the claim as stated): fifty pending (never used
for training) examples, all of quality 0.8, do not trigger incremental
training, because the fetch ignores pending rows below quality 1.0. -/
theorem c7_counterexample :
    learning_loop_fires false db50low = false ∧
    db50low.countP (fun ex => !ex.used_for_training) = 50 := by
  constructor
  · have hcond :
        (!(mkEx (4/5)).used_for_training && decide ((1:ℚ) ≤ (mkEx (4/5)).quality_score)) = false := by
      norm_num [mkEx]
    simp [learning_loop_fires, get_learning_data, db50low, List.filter_replicate, hcond,
      learning_threshold]
  · simp [db50low, List.countP_replicate, mkEx]

/-- C6 (amended): an output of exactly 2 words scores at most 0.8: the
short-output penalty applies and the length bonus cannot, but the 0.1
terminal-punctuation bonus still can, so 0.7 is not the ceiling. -/
theorem c6_two_word_bound (u r : List Char) (h : (pysplit r).length = 2) :
    assess_quality u r ≤ 4/5 := by
  simp only [assess_quality, h]
  norm_num
  split_ifs <;> norm_num [pymax, pymin]

/-- C6 (counterexample to the claim as stated): the two-word output
`Hi there.` ends in a period and scores 0.8, above the claimed 0.7
ceiling. -/
theorem c6_counterexample :
    ¬ assess_quality "q".toList "Hi there.".toList ≤ 7/10 := by
  have h1 : pysplit "Hi there.".toList = ["Hi".toList, "there.".toList] := by decide
  have h2 : pyLower "Hi there.".toList ∉ refusal_responses := by decide
  have h3 : "Hi there.".toList.getLast? = some '.' := by decide
  simp only [assess_quality, h1, h3]
  rw [if_neg h2]
  norm_num [pymax, pymin]

/-- Witness for the amended C6 at a two-word output. -/
theorem c6_witness :
    (pysplit "ok now".toList).length = 2 ∧
    assess_quality "a".toList "ok now".toList ≤ 4/5 :=
  ⟨by decide, c6_two_word_bound "a".toList "ok now".toList (by decide)⟩

/-- C9: `generate_response` always returns a string: the canned fallback
when model or tokenizer is missing, the apologetic message when the body
(prompt assembly, generation, post-processing, history update) raises,
the generated text otherwise; and the rule-based fallback always answers
out of its fixed pool of sixteen canned replies. -/
theorem c9_generate_response_total :
    (∀ (mL tL : Bool) (body : Except (List Char) (List Char)) (pick : Nat) (prompt : List Char),
        (mL = false ∨ tL = false →
          generate_response mL tL body pick prompt = generate_fallback_response pick prompt) ∧
        (∀ e, body = Except.error e → mL = true → tL = true →
          generate_response mL tL body pick prompt = apology e) ∧
        (∀ r, body = Except.ok r → mL = true → tL = true →
          generate_response mL tL body pick prompt = r)) ∧
    (∀ (pick : Nat) (prompt : List Char),
        generate_fallback_response pick prompt ∈ fallback_response_pool) := by
  constructor
  · intro mL tL body pick prompt
    refine ⟨?_, ?_, ?_⟩
    · intro h
      simp only [generate_response]
      rw [if_pos h]
    · rintro e rfl rfl rfl
      simp [generate_response]
    · rintro r rfl rfl rfl
      simp [generate_response]
  · intro pick prompt
    have h4 : pick % 4 = 0 ∨ pick % 4 = 1 ∨ pick % 4 = 2 ∨ pick % 4 = 3 := by omega
    have h5 : pick % 5 = 0 ∨ pick % 5 = 1 ∨ pick % 5 = 2 ∨ pick % 5 = 3 ∨ pick % 5 = 4 := by
      omega
    rw [generate_fallback_response]
    split_ifs <;>
      first
        | (simp [fallback_response_pool]; done)
        | (rcases h4 with h | h | h | h <;>
            (simp [pyChoice, h, fallback_response_pool]; done))
        | (rcases h5 with h | h | h | h | h <;>
            (simp [pyChoice, h, fallback_response_pool]; done))

/-- Witness for C9: a raised body surfaces as the apologetic message. -/
theorem c9_witness :
    generate_response true true (Except.error "boom".toList) 0 "x".toList =
      apology "boom".toList :=
  ((c9_generate_response_total.1 true true (Except.error "boom".toList) 0 "x".toList).2.1)
    "boom".toList rfl rfl rfl

/-- Splitting consumes a whitespace-free block into the accumulator. -/
theorem pysplitAux_word :
    ∀ (w rest acc : List Char), (∀ c ∈ w, ¬ isWS c = true) →
      pysplitAux (w ++ rest) acc = pysplitAux rest (w.reverse ++ acc) := by
  intro w
  induction w with
  | nil => intro rest acc _; simp
  | cons c cw ih =>
    intro rest acc hw
    have hc : ¬ isWS c = true := hw c (List.mem_cons_self _ _)
    simp only [List.cons_append, pysplitAux]
    rw [if_neg hc]
    have := ih rest (c :: acc) (fun d hd => hw d (List.mem_cons_of_mem _ hd))
    simpa [List.append_assoc] using this

/-- Splitting with a nonempty accumulator yields at least one word. -/
theorem pysplitAux_ne_nil :
    ∀ (s acc : List Char), acc ≠ [] → pysplitAux s acc ≠ [] := by
  intro s
  induction s with
  | nil => intro acc h; simp [pysplitAux, h]
  | cons c cs ih =>
    intro acc h
    simp only [pysplitAux]
    by_cases h1 : isWS c = true
    · rw [if_pos h1, if_neg h]
      simp
    · rw [if_neg h1]
      exact ih _ (by simp)

/-- The first element surviving `dropWhile` falsifies the predicate. -/
theorem dropWhile_head_false {α : Type} {p : α → Bool} :
    ∀ (l : List α) (d : α) (ds : List α), l.dropWhile p = d :: ds → p d = false := by
  intro l
  induction l with
  | nil => intro d ds h; cases h
  | cons a l ih =>
    intro d ds h
    by_cases hp : p a = true
    · rw [List.dropWhile_cons_of_pos hp] at h
      exact ih _ _ h
    · rw [List.dropWhile_cons_of_neg hp] at h
      cases h
      simpa using hp

/-- Splitting a normalised text and re-joining with single spaces is the
identity. -/
theorem joinSp_pysplit :
    ∀ (n : Nat) (s : List Char), s.length ≤ n → Normed s →
      joinSp (pysplit s) = s := by
  intro n
  induction n with
  | zero =>
    intro s hl _
    have hs : s = [] := List.eq_nil_of_length_eq_zero (by omega)
    subst hs
    simp [pysplit, pysplitAux, joinSp]
  | succ n ih =>
    intro s hl hn
    obtain ⟨hws, hch, hhead, hlast⟩ := hn
    cases s with
    | nil => simp [pysplit, pysplitAux, joinSp]
    | cons c cs =>
      have hc : ¬ isWS c = true := by
        intro h
        exact hhead c (by simp) (hws c (by simp) h)
      have hdecomp : c :: cs =
          (c :: cs.takeWhile (fun d => !isWS d)) ++ cs.dropWhile (fun d => !isWS d) := by
        rw [List.cons_append]
        congr 1
        exact (List.takeWhile_append_dropWhile _ _).symm
      have hwordAll : ∀ d ∈ c :: cs.takeWhile (fun d => !isWS d), ¬ isWS d = true := by
        intro d hd
        rcases List.mem_cons.mp hd with rfl | hd
        · exact hc
        · have := List.mem_takeWhile_imp hd
          simpa using this
      have hkey : pysplit (c :: cs) =
          pysplitAux (cs.dropWhile (fun d => !isWS d))
            ((c :: cs.takeWhile (fun d => !isWS d)).reverse ++ []) := by
        rw [pysplit]
        conv_lhs => rw [hdecomp]
        rw [pysplitAux_word _ _ _ hwordAll]
      cases hrest : cs.dropWhile (fun d => !isWS d) with
      | nil =>
        rw [hkey, hrest]
        have hacc : ((c :: cs.takeWhile (fun d => !isWS d)).reverse ++ []) ≠ [] := by simp
        simp only [pysplitAux]
        rw [if_neg hacc]
        have hcs : cs.takeWhile (fun d => !isWS d) = cs := by
          have := hdecomp
          rw [hrest] at this
          simpa using this.symm
        simp [joinSp, hcs]
      | cons d ds =>
        have hdws : isWS d = true := by
          have := dropWhile_head_false cs d ds hrest
          simpa using this
        have hdcs : d ∈ cs := (List.dropWhile_sublist _).subset (hrest ▸ List.mem_cons_self d ds)
        have hdsp : d = ' ' := hws d (List.mem_cons_of_mem c hdcs) hdws
        subst hdsp
        cases ds with
        | nil =>
          exfalso
          have hlast2 : (c :: cs).getLast? = some ' ' := by
            conv_lhs => rw [hdecomp, hrest]
            exact List.getLast?_concat _
          exact hlast ' ' (by rw [hlast2]; simp) rfl
        | cons e es =>
          have hchain2 : List.Chain' (fun a b => ¬(a = ' ' ∧ b = ' ')) (' ' :: e :: es) := by
            have := hch
            rw [hdecomp, hrest, List.chain'_append] at this
            exact this.2.1
          have hechar : e ≠ ' ' := by
            have := (List.chain'_cons'.mp hchain2).1 e (by simp)
            intro hEq
            exact this ⟨rfl, hEq⟩
          have hecs : e ∈ cs := by
            have : e ∈ cs.dropWhile (fun d => !isWS d) := by rw [hrest]; simp
            exact (List.dropWhile_sublist _).subset this
          have hews : ¬ isWS e = true := fun h => hechar (hws e (List.mem_cons_of_mem c hecs) h)
          have hsplitrest : pysplitAux (' ' :: e :: es)
              ((c :: cs.takeWhile (fun d => !isWS d)).reverse ++ []) =
              (c :: cs.takeWhile (fun d => !isWS d)) :: pysplit (e :: es) := by
            simp only [pysplitAux, pysplit]
            rw [if_pos (by decide), if_neg (by simp)]
            try simp
          have hne : pysplit (e :: es) ≠ [] := by
            rw [pysplit]
            simp only [pysplitAux]
            rw [if_neg hews]
            exact pysplitAux_ne_nil _ _ (by simp)
          have hjoin : joinSp ((c :: cs.takeWhile (fun d => !isWS d)) :: pysplit (e :: es)) =
              (c :: cs.takeWhile (fun d => !isWS d)) ++ ' ' :: joinSp (pysplit (e :: es)) := by
            cases hq : pysplit (e :: es) with
            | nil => exact absurd hq hne
            | cons q qs => simp [joinSp]
          have hlen2 : (e :: es).length ≤ n := by
            have hlencs : (c :: cs).length =
                (c :: cs.takeWhile (fun d => !isWS d)).length + (' ' :: e :: es).length := by
              conv_lhs => rw [hdecomp, hrest]
              rw [List.length_append]
            simp only [List.length_cons] at hlencs hl ⊢
            omega
          have hnormed2 : Normed (e :: es) := by
            refine ⟨?_, ?_, ?_, ?_⟩
            · intro x hx hxws
              have : x ∈ cs := by
                have : x ∈ cs.dropWhile (fun d => !isWS d) := by
                  rw [hrest]; exact List.mem_cons_of_mem _ hx
                exact (List.dropWhile_sublist _).subset this
              exact hws x (List.mem_cons_of_mem c this) hxws
            · exact (List.chain'_cons'.mp hchain2).2
            · intro x hx
              simp only [List.head?_cons, Option.mem_def, Option.some.injEq] at hx
              subst hx
              exact hechar
            · intro x hx
              have hgl : (c :: cs).getLast? = (e :: es).getLast? := by
                conv_lhs => rw [hdecomp, hrest]
                have : (c :: cs.takeWhile (fun d => !isWS d)) ++ ' ' :: e :: es =
                    ((c :: cs.takeWhile (fun d => !isWS d)) ++ [' ']) ++ (e :: es) := by
                  simp
                rw [this]
                try exact List.getLast?_append_of_ne_nil _ (by simp)
              exact hlast x (by rw [hgl]; exact hx)
          have hih := ih (e :: es) hlen2 hnormed2
          rw [hkey, hrest, hsplitrest, hjoin, hih]
          conv_rhs => rw [hdecomp, hrest]

/-- Characters of the collapsed text: a space, or a non-whitespace
character of the input. -/
theorem mem_collapseWSAux :
    ∀ (s : List Char) (b : Bool) (c : Char), c ∈ collapseWSAux s b →
      c = ' ' ∨ (c ∈ s ∧ isWS c = false) := by
  intro s
  induction s with
  | nil => intro b c h; cases h
  | cons a s ih =>
    intro b c h
    by_cases ha : isWS a = true
    · cases b with
      | true =>
        rw [show collapseWSAux (a :: s) true = collapseWSAux s true by
          simp [collapseWSAux, ha]] at h
        rcases ih true c h with h1 | ⟨h1, h2⟩
        · exact Or.inl h1
        · exact Or.inr ⟨List.mem_cons_of_mem _ h1, h2⟩
      | false =>
        rw [show collapseWSAux (a :: s) false = ' ' :: collapseWSAux s true by
          simp [collapseWSAux, ha]] at h
        rcases List.mem_cons.mp h with rfl | h
        · exact Or.inl rfl
        · rcases ih true c h with h1 | ⟨h1, h2⟩
          · exact Or.inl h1
          · exact Or.inr ⟨List.mem_cons_of_mem _ h1, h2⟩
    · rw [show collapseWSAux (a :: s) b = a :: collapseWSAux s false by
        simp [collapseWSAux, ha]] at h
      rcases List.mem_cons.mp h with rfl | h
      · exact Or.inr ⟨List.mem_cons_self _ _, by simpa using ha⟩
      · rcases ih false c h with h1 | ⟨h1, h2⟩
        · exact Or.inl h1
        · exact Or.inr ⟨List.mem_cons_of_mem _ h1, h2⟩

/-- After the collapser has just emitted a space, its further output does
not start with another space. -/
theorem collapseWSAux_true_head :
    ∀ (s : List Char) (x : Char), x ∈ (collapseWSAux s true).head? → x ≠ ' ' := by
  intro s
  induction s with
  | nil => intro x hx; cases hx
  | cons a s ih =>
    intro x hx
    by_cases ha : isWS a = true
    · rw [show collapseWSAux (a :: s) true = collapseWSAux s true by
        simp [collapseWSAux, ha]] at hx
      exact ih x hx
    · rw [show collapseWSAux (a :: s) true = a :: collapseWSAux s false by
        simp [collapseWSAux, ha]] at hx
      simp only [List.head?_cons, Option.mem_def, Option.some.injEq] at hx
      subst hx
      intro hEq
      subst hEq
      exact ha (by decide)

/-- The collapsed text never holds two adjacent spaces. -/
theorem chain_collapseWSAux :
    ∀ (s : List Char) (b : Bool),
      List.Chain' (fun a b => ¬(a = ' ' ∧ b = ' ')) (collapseWSAux s b) := by
  intro s
  induction s with
  | nil => intro b; simp [collapseWSAux]
  | cons a s ih =>
    intro b
    by_cases ha : isWS a = true
    · cases b with
      | true =>
        rw [show collapseWSAux (a :: s) true = collapseWSAux s true by
          simp [collapseWSAux, ha]]
        exact ih true
      | false =>
        rw [show collapseWSAux (a :: s) false = ' ' :: collapseWSAux s true by
          simp [collapseWSAux, ha]]
        rw [List.chain'_cons']
        refine ⟨?_, ih true⟩
        intro y hy
        intro ⟨_, hy2⟩
        exact collapseWSAux_true_head s y hy hy2
    · rw [show collapseWSAux (a :: s) b = a :: collapseWSAux s false by
        simp [collapseWSAux, ha]]
      rw [List.chain'_cons']
      refine ⟨?_, ih false⟩
      intro y hy
      intro ⟨ha2, _⟩
      subst ha2
      exact ha (by decide)

/-- Characters of the stripped text are characters of the input. -/
theorem mem_pystrip {c : Char} {u : List Char} (h : c ∈ pystrip u) : c ∈ u := by
  simp only [pystrip, List.mem_reverse] at h
  have h1 := (List.dropWhile_sublist (l := (u.dropWhile isWS).reverse) isWS).subset h
  rw [List.mem_reverse] at h1
  exact (List.dropWhile_sublist isWS).subset h1

/-- A suffix of a chain is a chain. -/
theorem chain_of_suffix {R : Char → Char → Prop} {l₁ l₂ : List Char}
    (hs : l₁ <:+ l₂) (h : List.Chain' R l₂) : List.Chain' R l₁ := by
  obtain ⟨t, rfl⟩ := hs
  exact (List.chain'_append.mp h).2.1

/-- Stripping whitespace from both ends of a collapsed text normalises
it. -/
theorem normed_pystrip_collapse (x : List Char) : Normed (pystrip (collapseWS x)) := by
  set u := collapseWS x with hu
  have hmemu : ∀ c ∈ u, isWS c = true → c = ' ' := by
    intro c hc hws
    rcases mem_collapseWSAux x false c hc with h1 | ⟨_, h2⟩
    · exact h1
    · rw [hws] at h2; cases h2
  have hchu : List.Chain' (fun a b => ¬(a = ' ' ∧ b = ' ')) u := chain_collapseWSAux x false
  refine ⟨?_, ?_, ?_, ?_⟩
  · intro c hc hws
    exact hmemu c (mem_pystrip hc) hws
  · have h1 : List.Chain' (fun a b => ¬(a = ' ' ∧ b = ' ')) (u.dropWhile isWS) :=
      chain_of_suffix (List.dropWhile_suffix isWS) hchu
    have h2 : List.Chain' (fun a b => ¬(a = ' ' ∧ b = ' ')) (u.dropWhile isWS).reverse := by
      rw [List.chain'_reverse]
      exact h1.imp (fun a b hab => fun ⟨x1, x2⟩ => hab ⟨x2, x1⟩)
    have h3 : List.Chain' (fun a b => ¬(a = ' ' ∧ b = ' '))
        ((u.dropWhile isWS).reverse.dropWhile isWS) :=
      chain_of_suffix (List.dropWhile_suffix isWS) h2
    rw [pystrip, List.chain'_reverse]
    exact h3.imp (fun a b hab => fun ⟨x1, x2⟩ => hab ⟨x2, x1⟩)
  · intro x1 hx1
    rw [pystrip, List.head?_reverse] at hx1
    cases hdw : (u.dropWhile isWS).reverse.dropWhile isWS with
    | nil => rw [hdw] at hx1; cases hx1
    | cons d ds =>
      have hlast2 : ((u.dropWhile isWS).reverse.dropWhile isWS).getLast? =
          (u.dropWhile isWS).reverse.getLast? := by
        obtain ⟨t, ht⟩ := List.dropWhile_suffix (l := (u.dropWhile isWS).reverse) isWS
        conv_rhs => rw [← ht]
        exact (List.getLast?_append_of_ne_nil _ (by rw [hdw]; simp)).symm
      rw [hlast2, List.getLast?_reverse] at hx1
      cases hdw2 : u.dropWhile isWS with
      | nil => rw [hdw2] at hx1; cases hx1
      | cons d2 ds2 =>
        rw [hdw2] at hx1
        simp only [List.head?_cons, Option.mem_def, Option.some.injEq] at hx1
        subst hx1
        have := dropWhile_head_false u d2 ds2 hdw2
        intro hEq
        subst hEq
        simp [isWS] at this
  · intro x1 hx1
    rw [pystrip, List.getLast?_reverse] at hx1
    cases hdw : (u.dropWhile isWS).reverse.dropWhile isWS with
    | nil => rw [hdw] at hx1; cases hx1
    | cons d ds =>
      rw [hdw] at hx1
      simp only [List.head?_cons, Option.mem_def, Option.some.injEq] at hx1
      subst hx1
      have := dropWhile_head_false _ d ds hdw
      intro hEq
      subst hEq
      simp [isWS] at this

/-- The output of `preprocess_text` is normalised. -/
theorem normed_preprocess (s : List Char) : Normed (preprocess_text s) :=
  normed_pystrip_collapse (padPunct (pyLower s))

/-- Reading back the code point of a valid `Char.ofNat`. -/
theorem toNat_ofNat_small (n : Nat) (h : n < 55296) : (Char.ofNat n).toNat = n := by
  have hv : n.isValidChar := Or.inl h
  simp [Char.ofNat, hv, Char.ofNatAux, Char.toNat]
  rw [UInt32.toNat]
  exact rfl

/-- Lowercased characters are never in the uppercase ASCII range. -/
theorem pyLowerChar_not_upper (d : Char) :
    ¬(65 ≤ (pyLowerChar d).toNat ∧ (pyLowerChar d).toNat ≤ 90) := by
  rw [pyLowerChar]
  by_cases hd : 65 ≤ d.toNat ∧ d.toNat ≤ 90
  · rw [if_pos hd, toNat_ofNat_small _ (by omega)]
    omega
  · rw [if_neg hd]
    exact hd

/-- Characters of the punctuation-padded text: a space or an input
character. -/
theorem mem_padPunct :
    ∀ (y : List Char) (c : Char), c ∈ padPunct y → c = ' ' ∨ c ∈ y := by
  intro y
  induction y with
  | nil => intro c h; cases h
  | cons a y ih =>
    intro c h
    simp only [padPunct] at h
    by_cases ha : isPunct a = true
    · rw [if_pos ha] at h
      rcases List.mem_cons.mp h with rfl | h
      · exact Or.inl rfl
      rcases List.mem_cons.mp h with rfl | h
      · exact Or.inr (List.mem_cons_self _ _)
      rcases List.mem_cons.mp h with rfl | h
      · exact Or.inl rfl
      · rcases ih c h with h1 | h1
        · exact Or.inl h1
        · exact Or.inr (List.mem_cons_of_mem _ h1)
    · rw [if_neg ha] at h
      rcases List.mem_cons.mp h with rfl | h
      · exact Or.inr (List.mem_cons_self _ _)
      · rcases ih c h with h1 | h1
        · exact Or.inl h1
        · exact Or.inr (List.mem_cons_of_mem _ h1)

/-- No character of the preprocessed text is an uppercase ASCII letter. -/
theorem preprocess_no_upper (s : List Char) :
    ∀ c ∈ preprocess_text s, ¬(65 ≤ c.toNat ∧ c.toNat ≤ 90) := by
  intro c hc
  have h1 : c ∈ collapseWS (padPunct (pyLower s)) := mem_pystrip hc
  rcases mem_collapseWSAux (padPunct (pyLower s)) false c h1 with h2 | ⟨h2, -⟩
  · subst h2; decide
  · rcases mem_padPunct _ c h2 with h3 | h3
    · subst h3; decide
    · simp only [pyLower, List.mem_map] at h3
      obtain ⟨d, -, rfl⟩ := h3
      exact pyLowerChar_not_upper d

/-- The words produced by splitting use only characters of the input. -/
theorem pysplitAux_mem_chars :
    ∀ (s acc w : List Char) (c : Char), w ∈ pysplitAux s acc → c ∈ w →
      c ∈ s ∨ c ∈ acc := by
  intro s
  induction s with
  | nil =>
    intro acc w c hw hc
    simp only [pysplitAux] at hw
    by_cases h : acc = []
    · rw [if_pos h] at hw; cases hw
    · rw [if_neg h] at hw
      rcases List.mem_cons.mp hw with rfl | hw
      · exact Or.inr (List.mem_reverse.mp hc)
      · cases hw
  | cons a s ih =>
    intro acc w c hw hc
    simp only [pysplitAux] at hw
    by_cases ha : isWS a = true
    · rw [if_pos ha] at hw
      by_cases hacc : acc = []
      · rw [if_pos hacc] at hw
        rcases ih [] w c hw hc with h1 | h1
        · exact Or.inl (List.mem_cons_of_mem _ h1)
        · cases h1
      · rw [if_neg hacc] at hw
        rcases List.mem_cons.mp hw with rfl | hw
        · exact Or.inr (List.mem_reverse.mp hc)
        · rcases ih [] w c hw hc with h1 | h1
          · exact Or.inl (List.mem_cons_of_mem _ h1)
          · cases h1
    · rw [if_neg ha] at hw
      rcases ih (a :: acc) w c hw hc with h1 | h1
      · exact Or.inl (List.mem_cons_of_mem _ h1)
      · rcases List.mem_cons.mp h1 with rfl | h1
        · exact Or.inl (List.mem_cons_self _ _)
        · exact Or.inr h1

/-- Special-token strings all contain an uppercase letter, so a word of
preprocessed (hence lowercased) text is never skipped as special. -/
theorem not_special_of_preprocessed (s : List Char) (w : List Char)
    (hw : w ∈ pysplit (preprocess_text s)) : isSpecialTok w = false := by
  have hchars : ∀ c ∈ w, ¬(65 ≤ c.toNat ∧ c.toNat ≤ 90) := by
    intro c hc
    rcases pysplitAux_mem_chars (preprocess_text s) [] w c hw hc with h1 | h1
    · exact preprocess_no_upper s c h1
    · cases h1
  by_contra hspec
  rw [Bool.not_eq_false] at hspec
  have hcase : w = "<PAD>".toList ∨ w = "<UNK>".toList ∨ w = "<BOS>".toList ∨
      w = "<EOS>".toList ∨ w = "<MASK>".toList := by
    simp only [isSpecialTok, special_tokens, List.lookup] at hspec
    repeat' split at hspec
    all_goals simp_all [beq_iff_eq]
  rcases hcase with rfl | rfl | rfl | rfl | rfl
  · exact hchars 'P' (by decide) (by decide)
  · exact hchars 'U' (by decide) (by decide)
  · exact hchars 'B' (by decide) (by decide)
  · exact hchars 'E' (by decide) (by decide)
  · exact hchars 'M' (by decide) (by decide)

/-- A successful association-list lookup exhibits a member pair. -/
theorem mem_of_lookup {α β : Type} [BEq α] [LawfulBEq α] :
    ∀ (l : List (α × β)) (a : α) (b : β), l.lookup a = some b → (a, b) ∈ l := by
  intro l
  induction l with
  | nil => intro a b h; cases h
  | cons p l ih =>
    obtain ⟨pa, pb⟩ := p
    intro a b h
    rw [List.lookup] at h
    cases hb : a == pa with
    | true =>
      rw [hb] at h
      cases h
      have : a = pa := eq_of_beq hb
      subst this
      exact List.mem_cons_self _ _
    | false =>
      rw [hb] at h
      exact List.mem_cons_of_mem _ (ih a b h)

/-- In a well-formed tokenizer, `inverse_vocab` inverts `vocab`. -/
theorem lookup_wf_inv {t : Tokenizer} (hwf : TokWF t) {w : List Char} {i : Nat}
    (h : lookupWord t w = some i) : lookupId t i = some w := by
  have hmem : (w, i) ∈ t.vocab := mem_of_lookup t.vocab w i h
  exact hwf (w, i) hmem

/-- Flattening the per-word encoding of known words is the word-to-id
map. -/
theorem flatten_known (t : Tokenizer) :
    ∀ (ws : List (List Char)), (∀ w ∈ ws, (lookupWord t w).isSome) →
      (ws.map (fun w =>
        match lookupWord t w with
        | some i => [i]
        | none => handle_unknown_word t w)).flatten =
        ws.map (fun w => (lookupWord t w).getD 0) := by
  intro ws
  induction ws with
  | nil => intro _; simp
  | cons w ws ih =>
    intro hk
    obtain ⟨i, hi⟩ := Option.isSome_iff_exists.mp (hk w (List.mem_cons_self _ _))
    rw [List.map_cons, List.map_cons, List.flatten_cons, hi,
      ih (fun v hv => hk v (List.mem_cons_of_mem _ hv))]
    simp

/-- Encoding a text whose words are all known maps each word to its id. -/
theorem encode_known (t : Tokenizer) (s : List Char)
    (hk : ∀ w ∈ pysplit (preprocess_text s), (lookupWord t w).isSome) :
    encode t s false =
      (pysplit (preprocess_text s)).map (fun w => (lookupWord t w).getD 0) := by
  have h0 : encode t s false = ((pysplit (preprocess_text s)).map (fun w =>
      match lookupWord t w with
      | some i => [i]
      | none => handle_unknown_word t w)).flatten := by
    simp [encode]
  rw [h0]
  exact flatten_known t _ hk

/-- Looking the ids of known, non-special words back up restores exactly
the words. -/
theorem filterMap_decode_known (t : Tokenizer) (hwf : TokWF t) :
    ∀ (ws : List (List Char)), (∀ w ∈ ws, (lookupWord t w).isSome) →
      (∀ w ∈ ws, isSpecialTok w = false) →
      (ws.map (fun w => (lookupWord t w).getD 0)).filterMap (fun i =>
        match lookupId t i with
        | some tok => if true && isSpecialTok tok then none else some tok
        | none => none) = ws := by
  intro ws
  induction ws with
  | nil => intro _ _; simp
  | cons w ws ih =>
    intro hk hns
    obtain ⟨i, hi⟩ := Option.isSome_iff_exists.mp (hk w (List.mem_cons_self _ _))
    have hinv : lookupId t i = some w := lookup_wf_inv hwf hi
    rw [List.map_cons, List.filterMap_cons, hi,
      ih (fun v hv => hk v (List.mem_cons_of_mem _ hv))
        (fun v hv => hns v (List.mem_cons_of_mem _ hv))]
    simp [hinv, hns w (List.mem_cons_self _ _)]

/-- Decoding the ids of known, non-special words restores the joined,
punctuation-cleaned text. -/
theorem decode_known (t : Tokenizer) (hwf : TokWF t) (ws : List (List Char))
    (hk : ∀ w ∈ ws, (lookupWord t w).isSome)
    (hns : ∀ w ∈ ws, isSpecialTok w = false) :
    decode t (ws.map (fun w => (lookupWord t w).getD 0)) true =
      cleanupPunct (joinSp ws) := by
  simp only [decode]
  rw [filterMap_decode_known t hwf ws hk hns]

/-- C2 (amended): for any text whose preprocessed words are all in a
well-formed vocabulary, decoding its encoding (specials suppressed on
both sides) returns the punctuation-spacing cleanup of the preprocessed
text — `decode` re-attaches each punctuation word to the text before it,
so the round trip equals `preprocess_text` itself only for texts without
punctuation. -/
theorem c2_roundtrip_amended (t : Tokenizer) (s : List Char) (hwf : TokWF t)
    (hk : ∀ w ∈ pysplit (preprocess_text s), (lookupWord t w).isSome) :
    decode t (encode t s false) true = cleanupPunct (preprocess_text s) := by
  rw [encode_known t s hk,
    decode_known t hwf _ hk (fun w hw => not_special_of_preprocessed s w hw),
    joinSp_pysplit (preprocess_text s).length _ le_rfl (normed_preprocess s)]

/-- C2 (counterexample to the claim as stated): on the vocabulary
`{hi, ,}` the text `Hi,` is made of known words only, yet the round trip
returns `hi,` while `preprocess_text` returns `hi ,` — the decode-side
punctuation cleanup removes the space the preprocessing inserted. -/
theorem c2_counterexample :
    TokWF tok0 ∧
    (∀ w ∈ pysplit (preprocess_text "Hi,".toList), (lookupWord tok0 w).isSome) ∧
    decode tok0 (encode tok0 "Hi,".toList false) true ≠ preprocess_text "Hi,".toList := by
  refine ⟨by unfold TokWF; decide, by decide, by decide⟩

/-- With `top_k = 1` and a unique maximum, top-k filtering leaves exactly
the maximal entry finite. -/
theorem topkFilter_one_uniqueMax {l : List ℚ} {i : Nat} (h : UniqueMax l i) :
    (topkFilter 1 l).length = l.length ∧
    ∀ j, j < l.length →
      (topkFilter 1 l).getD j none = if j = i then some (l.getD i 0) else none := by
  obtain ⟨hi, hmax⟩ := h
  have hfj : topkFilter 1 l = l.map (fun x =>
      if 1 ≤ l.countP (fun y => decide (x < y)) then none else some x) := by
    rw [topkFilter, if_neg (by norm_num)]
  constructor
  · rw [hfj, List.length_map]
  · intro j hj
    have hjm : j < (topkFilter 1 l).length := by rw [hfj, List.length_map]; exact hj
    rw [getD_of_lt _ _ hjm]
    have : (topkFilter 1 l)[j] = if 1 ≤ l.countP (fun y => decide (l[j] < y)) then none
        else some l[j] := by
      simp only [hfj]
      rw [List.getElem_map]
    rw [this]
    by_cases hji : j = i
    · subst hji
      have hcount : l.countP (fun y => decide (l[j] < y)) = 0 := by
        rw [List.countP_eq_zero]
        intro a ha
        obtain ⟨k, hk, rfl⟩ := List.mem_iff_getElem.mp ha
        by_cases hkj : k = j
        · subst hkj; simp
        · have := hmax k hk hkj
          rw [getD_of_lt _ _ hk, getD_of_lt _ _ hj] at this
          simp only [decide_eq_true_eq]
          exact not_lt_of_lt this
      rw [hcount, if_neg (by omega), if_pos rfl, getD_of_lt _ _ hj]
    · have hcount : 0 < l.countP (fun y => decide (l[j] < y)) := by
        rw [List.countP_pos_iff]
        refine ⟨l[i], List.getElem_mem hi, ?_⟩
        have := hmax j hj hji
        rw [getD_of_lt _ _ hj, getD_of_lt _ _ hi] at this
        simpa using this
      rw [if_pos (by omega), if_neg hji]

/-- Top-p filtering never touches a list with a single finite entry: that
entry sorts first and the shifted removal mask always keeps the first
sorted position, while `-inf` entries stay `-inf`. -/
theorem topPFilter_singleton (e : ℚ → ℚ) (p : ℚ) (L : List (Option ℚ)) (i : Nat) (v : ℚ)
    (hi : i < L.length)
    (hshape : ∀ j, j < L.length → L.getD j none = if j = i then some v else none) :
    (topPFilter e p L).length = L.length ∧
    ∀ j, j < L.length → (topPFilter e p L).getD j none = L.getD j none := by
  by_cases hp : 1 ≤ p
  · rw [topPFilter, if_pos hp]
    exact ⟨rfl, fun j hj => rfl⟩
  · have hfj : topPFilter e p L = L.mapIdx (fun k x =>
        if ((List.range L.length).filter (fun j => sortedBeforeB L j k)) ≠ [] ∧
            p < (((List.range L.length).filter (fun j => sortedBeforeB L j k)).map
              (fun j => (softmaxO e L).getD j 0)).sum
        then none else x) := by
      rw [topPFilter, if_neg hp]
    constructor
    · rw [hfj, List.length_mapIdx]
    · intro j hj
      have hjm : j < (topPFilter e p L).length := by rw [hfj, List.length_mapIdx]; exact hj
      rw [getD_of_lt _ _ hjm, getD_of_lt _ _ hj]
      have hget : (topPFilter e p L)[j] =
          if ((List.range L.length).filter (fun k => sortedBeforeB L k j)) ≠ [] ∧
              p < (((List.range L.length).filter (fun k => sortedBeforeB L k j)).map
                (fun k => (softmaxO e L).getD k 0)).sum
          then none else L[j] := by
        simp only [hfj]
        rw [List.getElem_mapIdx]
      rw [hget]
      by_cases hji : j = i
      · subst hji
        have hLj : L.getD j none = some v := by
          have := hshape j hj
          rwa [if_pos rfl] at this
        have hbefore : (List.range L.length).filter (fun k => sortedBeforeB L k j) = [] := by
          rw [List.filter_eq_nil_iff]
          intro a ha
          have haL : a < L.length := List.mem_range.mp ha
          have hLa : L.getD a none = if a = j then some v else none := hshape a haL
          simp only [sortedBeforeB, Bool.or_eq_true, Bool.and_eq_true, decide_eq_true_eq,
            not_or, not_and]
          rw [hLj, hLa]
          constructor
          · by_cases haj : a = j
            · subst haj
              rw [if_pos rfl]
              simp [optLtB]
            · rw [if_neg haj]
              simp [optLtB]
          · intro heq
            by_cases haj : a = j
            · subst haj; omega
            · rw [if_neg haj] at heq
              cases heq
        rw [if_neg (fun hctr => hctr.1 hbefore)]
      · have hnone : L[j] = none := by
          have := hshape j hj
          rwa [getD_of_lt _ _ hj, if_neg hji] at this
        rw [hnone, ite_self]

/-- A list whose entries vanish except at one position sums to that
entry. -/
theorem sum_singleton_shape :
    ∀ (A : List ℚ) (i : Nat) (c : ℚ), i < A.length →
      (∀ j, j < A.length → A.getD j 0 = if j = i then c else 0) → A.sum = c := by
  intro A
  induction A with
  | nil => intro i c hi _; simp at hi
  | cons a A ih =>
    intro i c hi hshape
    cases i with
    | zero =>
      have ha : a = c := by
        have := hshape 0 (by simp)
        simpa using this
      have hA : ∀ x ∈ A, x = 0 := by
        intro x hx
        obtain ⟨k, hk, rfl⟩ := List.mem_iff_getElem.mp hx
        have := hshape (k + 1) (by simp; omega)
        rw [List.getD_cons_succ, if_neg (by omega)] at this
        rw [← getD_of_lt A 0 hk]
        exact this
      rw [List.sum_cons, ha, List.sum_eq_zero hA, add_zero]
    | succ i' =>
      have ha : a = 0 := by
        have := hshape 0 (by simp)
        simpa using this
      have hA : A.sum = c := by
        refine ih i' c (by simp at hi; omega) ?_
        intro j hj
        have := hshape (j + 1) (by simp; omega)
        rw [List.getD_cons_succ] at this
        rw [this]
        by_cases hji : j = i'
        · subst hji; simp
        · rw [if_neg hji, if_neg (by omega)]
      rw [List.sum_cons, ha, hA, zero_add]

/-- The softmax of a single-survivor logit row is supported exactly on the
survivor. -/
theorem softmaxO_singleton (e : ℚ → ℚ) (he : ∀ x, 0 < e x) (L : List (Option ℚ)) (i : Nat)
    (v : ℚ) (hi : i < L.length)
    (hshape : ∀ j, j < L.length → L.getD j none = if j = i then some v else none) :
    ∀ t, 0 < (softmaxO e L).getD t 0 ↔ t = i := by
  have hsum : (L.map (elimProb e)).sum = e v := by
    refine sum_singleton_shape (L.map (elimProb e)) i (e v) (by rw [List.length_map]; exact hi) ?_
    intro j hj
    rw [List.length_map] at hj
    rw [getD_of_lt _ _ (by rw [List.length_map]; exact hj), List.getElem_map]
    have := hshape j hj
    rw [getD_of_lt _ _ hj] at this
    rw [this]
    by_cases hji : j = i
    · subst hji; simp [elimProb]
    · rw [if_neg hji, if_neg hji]; simp [elimProb]
  intro t
  by_cases ht : t < L.length
  · have hget : (softmaxO e L).getD t 0 = elimProb e L[t] / e v := by
      rw [softmaxO]
      rw [getD_of_lt _ _ (by rw [List.length_map]; exact ht), List.getElem_map, hsum]
    rw [hget]
    have hLt := hshape t ht
    rw [getD_of_lt _ _ ht] at hLt
    by_cases hti : t = i
    · subst hti
      rw [hLt, if_pos rfl]
      simp only [elimProb]
      rw [div_self (ne_of_gt (he v))]
      simp
    · rw [hLt, if_neg hti]
      simp only [elimProb]
      simp [hti]
  · rw [(softmaxO e L).getD_eq_default 0 (by rw [softmaxO, List.length_map]; omega)]
    simp only [lt_irrefl, false_iff]
    omega

/-- With `top_k = 1` and a unique maximal penalised logit, the only token
`multinomial` can draw is that maximum. -/
theorem possible_iff_argmax (e : ℚ → ℚ) (he : ∀ x, 0 < e x) (P : GenParams)
    (hk : P.top_k = 1) (M : List Nat → List ℚ) (gen past : List Nat) (i : Nat)
    (hu : UniqueMax (penalizedLogits P M gen past) i) :
    ∀ t, Possible e P M gen past t ↔ t = i := by
  intro t
  obtain ⟨htopkLen, htopkShape⟩ := topkFilter_one_uniqueMax hu
  have hlen1 : i < (topkFilter 1 (penalizedLogits P M gen past)).length := by
    rw [htopkLen]; exact hu.1
  have hshape1 : ∀ j, j < (topkFilter 1 (penalizedLogits P M gen past)).length →
      (topkFilter 1 (penalizedLogits P M gen past)).getD j none =
        if j = i then some ((penalizedLogits P M gen past).getD i 0) else none := by
    intro j hj
    exact htopkShape j (by rwa [htopkLen] at hj)
  obtain ⟨hlen2, hshape2⟩ := topPFilter_singleton e P.top_p _ i _ hlen1 hshape1
  have hshape3 : ∀ j, j < (topPFilter e P.top_p
      (topkFilter 1 (penalizedLogits P M gen past))).length →
      (topPFilter e P.top_p (topkFilter 1 (penalizedLogits P M gen past))).getD j none =
        if j = i then some ((penalizedLogits P M gen past).getD i 0) else none := by
    intro j hj
    rw [hlen2] at hj
    rw [hshape2 j hj]
    exact hshape1 j hj
  have hsupp := softmaxO_singleton e he _ i _ (by rw [hlen2]; exact hlen1) hshape3
  rw [Possible, stepProbs, hk]
  exact hsupp t

/-- The argmax index of a nonempty list is in range. -/
theorem argmaxIdx_lt_length : ∀ (l : List ℚ), l ≠ [] → argmaxIdx l < l.length := by
  intro l
  induction l using argmaxIdx.induct with
  | case1 => intro h; exact absurd rfl h
  | case2 x => intro _; simp [argmaxIdx]
  | case3 x y r hcond ih =>
    intro _
    rw [argmaxIdx, if_pos hcond]
    have := ih (by simp)
    simp only [List.length_cons] at this ⊢
    omega
  | case4 x y r hcond ih =>
    intro _
    rw [argmaxIdx, if_neg hcond]
    simp

/-- At a unique maximum, `argmaxIdx` returns its index. -/
theorem argmaxIdx_uniqueMax : ∀ (l : List ℚ) (i : Nat), UniqueMax l i → argmaxIdx l = i := by
  intro l
  induction l using argmaxIdx.induct with
  | case1 => intro i h; simp [UniqueMax] at h
  | case2 x =>
    intro i h
    have hi := h.1
    simp only [List.length_cons, List.length_nil] at hi
    have : i = 0 := by omega
    subst this
    simp [argmaxIdx]
  | case3 x y r hcond ih =>
    intro i h
    obtain ⟨hi, hmax⟩ := h
    have hjlt : argmaxIdx (y :: r) < (y :: r).length := argmaxIdx_lt_length _ (by simp)
    cases i with
    | zero =>
      exfalso
      have hlt : (y :: r).getD (argmaxIdx (y :: r)) 0 < x := by
        have := hmax (argmaxIdx (y :: r) + 1)
          (by simp only [List.length_cons] at hjlt ⊢; omega) (by omega)
        simpa [List.getD_cons_succ, List.getD_cons_zero] using this
      exact absurd hcond (not_lt_of_lt hlt)
    | succ i' =>
      have hum : UniqueMax (y :: r) i' := by
        constructor
        · simp only [List.length_cons] at hi ⊢; omega
        · intro k hk hne
          have := hmax (k + 1) (by simp only [List.length_cons] at hk ⊢; omega) (by omega)
          simpa [List.getD_cons_succ] using this
      have hj : argmaxIdx (y :: r) = i' := ih i' hum
      rw [argmaxIdx, if_pos hcond, hj]
  | case4 x y r hcond ih =>
    intro i h
    obtain ⟨hi, hmax⟩ := h
    cases i with
    | zero => rw [argmaxIdx, if_neg hcond]
    | succ i' =>
      exfalso
      have hum : UniqueMax (y :: r) i' := by
        constructor
        · simp only [List.length_cons] at hi ⊢; omega
        · intro k hk hne
          have := hmax (k + 1) (by simp only [List.length_cons] at hk ⊢; omega) (by omega)
          simpa [List.getD_cons_succ] using this
      have hj : argmaxIdx (y :: r) = i' := ih i' hum
      have hlt : x < (y :: r).getD (argmaxIdx (y :: r)) 0 := by
        have := hmax 0 (by simp) (by omega)
        rw [List.getD_cons_zero, List.getD_cons_succ] at this
        rw [hj]
        exact this
      exact hcond hlt

/-- Token-set insertion keeps the set duplicate-free. -/
theorem pastAdd_nodup {past : List Nat} (h : past.Nodup) (t : Nat) : (pastAdd past t).Nodup := by
  rw [pastAdd]
  split
  · exact h
  · rw [← List.concat_eq_append]
    exact List.Nodup.concat (by assumption) h

/-- Every run of the sampling loop with `top_k = 1` follows greedy argmax
decoding, provided the penalised logits always have a unique maximum. -/
theorem gen_eq_greedy (e : ℚ → ℚ) (P : GenParams) (M : List Nat → List ℚ)
    (he : ∀ x, 0 < e x) (hk : P.top_k = 1)
    (hu : ∀ gen past, past.Nodup → ∃ i, UniqueMax (penalizedLogits P M gen past) i) :
    ∀ {f gen past out}, past.Nodup → Gen e P M f gen past out →
      out = greedyGen P M f gen past := by
  intro f gen past out hnd h
  induction h with
  | fuel_out gen past => rfl
  | eos_stop f gen past t hp ht =>
    obtain ⟨i, hui⟩ := hu gen past hnd
    have hti : t = i := (possible_iff_argmax e he P hk M gen past i hui t).mp hp
    have hai : argmaxIdx (penalizedLogits P M gen past) = i := argmaxIdx_uniqueMax _ i hui
    have hieos : i = P.eos_id := by rw [← hti]; exact ht
    simp only [greedyGen]
    rw [hai, if_pos hieos]
  | len_stop f gen past t hp ht hlen =>
    obtain ⟨i, hui⟩ := hu gen past hnd
    have hti : t = i := (possible_iff_argmax e he P hk M gen past i hui t).mp hp
    have hai : argmaxIdx (penalizedLogits P M gen past) = i := argmaxIdx_uniqueMax _ i hui
    simp only [greedyGen]
    rw [hai, if_neg (by rw [← hti]; exact ht), if_pos hlen, hti]
  | next f gen past t out hp ht hlen hgen ih =>
    obtain ⟨i, hui⟩ := hu gen past hnd
    have hti : t = i := (possible_iff_argmax e he P hk M gen past i hui t).mp hp
    have hai : argmaxIdx (penalizedLogits P M gen past) = i := argmaxIdx_uniqueMax _ i hui
    simp only [greedyGen]
    rw [hai, if_neg (by rw [← hti]; exact ht), if_neg (by omega), ← hti]
    exact ih (pastAdd_nodup hnd t)

/-- C5: with `top_k = 1` and any temperature, two runs of the sampling
loop from the same state produce the same sequence — the unique greedy
argmax decode — whatever the RNG draws, provided the maximal penalised
logit is unique at every reachable (duplicate-free token set) state. -/
theorem c5_topk1_deterministic (e : ℚ → ℚ) (P : GenParams) (M : List Nat → List ℚ)
    (he : ∀ x, 0 < e x) (hk : P.top_k = 1)
    (hu : ∀ gen past, past.Nodup → ∃ i, UniqueMax (penalizedLogits P M gen past) i)
    (f : Nat) (gen past out1 out2 : List Nat) (hnd : past.Nodup)
    (h1 : Gen e P M f gen past out1) (h2 : Gen e P M f gen past out2) :
    out1 = out2 ∧ out1 = greedyGen P M f gen past := by
  have g1 := gen_eq_greedy e P M he hk hu hnd h1
  have g2 := gen_eq_greedy e P M he hk hu hnd h2
  exact ⟨g1.trans g2.symm, g1⟩

/-- The penalty fold leaves list length unchanged. -/
theorem foldl_set_penalty_length (p : ℚ) :
    ∀ (past : List Nat) (l : List ℚ),
      (past.foldl (fun l u => l.set u (repPenaltyVal p (l.getD u 0))) l).length = l.length := by
  intro past
  induction past with
  | nil => intro l; rfl
  | cons a rest ih =>
    intro l
    rw [List.foldl_cons, ih, List.length_set]

/-- The concrete model `M0` under parameters `P0` has its unique maximal
penalised logit at token 1 in every duplicate-free state. -/
theorem M0_uniqueMax (gen past : List Nat) (hnd : past.Nodup) :
    UniqueMax (penalizedLogits P0 M0 gen past) 1 := by
  have hl0 : scaleTemp P0.temperature (M0 gen) = [0, 5, 1, 2] := by
    simp [scaleTemp, M0, P0]
  have hpen : penalizedLogits P0 M0 gen past =
      past.foldl (fun l u => l.set u (repPenaltyVal (11/10) (l.getD u 0))) [0, 5, 1, 2] := by
    rw [penalizedLogits, hl0, show P0.repetition_penalty = 11/10 from rfl,
      apply_repetition_penalty, if_neg (by norm_num)]
  have hlen : (penalizedLogits P0 M0 gen past).length = 4 := by
    rw [hpen, foldl_set_penalty_length]
    rfl
  have hval : ∀ t, t < 4 →
      (penalizedLogits P0 M0 gen past).getD t 0 =
        if t ∈ past then repPenaltyVal (11/10) (([0, 5, 1, 2] : List ℚ).getD t 0)
        else ([0, 5, 1, 2] : List ℚ).getD t 0 := by
    intro t htlt
    rw [hpen]
    by_cases hmem : t ∈ past
    · rw [if_pos hmem]
      exact foldl_set_penalty_mem (11/10) past _ t hnd hmem (by simp; omega)
    · rw [if_neg hmem]
      exact foldl_set_penalty_notmem (11/10) past _ t hmem
  refine ⟨by rw [hlen]; omega, ?_⟩
  intro j hj hne
  rw [hlen] at hj
  have h1 := hval 1 (by omega)
  have hj2 := hval j hj
  have hone : (penalizedLogits P0 M0 gen past).getD 1 0 = 5 ∨
      (penalizedLogits P0 M0 gen past).getD 1 0 = 50/11 := by
    rw [h1]
    split
    · right; norm_num [repPenaltyVal]
    · left; rfl
  interval_cases j
  · have : (penalizedLogits P0 M0 gen past).getD 0 0 = 0 := by
      rw [hj2]
      split
      · norm_num [repPenaltyVal]
      · rfl
    rcases hone with h | h <;> rw [this, h] <;> norm_num
  · omega
  · have : (penalizedLogits P0 M0 gen past).getD 2 0 = 1 ∨
        (penalizedLogits P0 M0 gen past).getD 2 0 = 10/11 := by
      rw [hj2]
      split
      · right; norm_num [repPenaltyVal]
      · left; rfl
    rcases this with h2 | h2 <;> rcases hone with h | h <;> rw [h2, h] <;> norm_num
  · have : (penalizedLogits P0 M0 gen past).getD 3 0 = 2 ∨
        (penalizedLogits P0 M0 gen past).getD 3 0 = 20/11 := by
      rw [hj2]
      split
      · right; norm_num [repPenaltyVal]
      · left; rfl
    rcases this with h2 | h2 <;> rcases hone with h | h <;> rw [h2, h] <;> norm_num

/-- Witness for C5: on the concrete model, one len-stop run from prompt
`[0]` is forced to the greedy output. -/
theorem c5_witness :
    P0.top_k = 1 ∧ [0, 1] = greedyGen P0 M0 1 [0] [] := by
  have hPoss : Possible eConstOne P0 M0 [0] [] 1 :=
    (possible_iff_argmax eConstOne (fun _ => zero_lt_one) P0 rfl M0 [0] [] 1
      (M0_uniqueMax [0] [] (by simp)) 1).mpr rfl
  have hGen : Gen eConstOne P0 M0 1 [0] [] ([0] ++ [1]) :=
    Gen.len_stop 0 [0] [] 1 hPoss (by decide) (by decide)
  have hmain := c5_topk1_deterministic eConstOne P0 M0 (fun _ => zero_lt_one) rfl
    (fun gen past hnd => ⟨1, M0_uniqueMax gen past hnd⟩) 1 [0] [] ([0] ++ [1]) ([0] ++ [1])
    (by simp) hGen hGen
  exact ⟨rfl, by simpa using hmain.2⟩

/-- C1 (amended): if the causal mask made the attention weights of future
positions exactly zero — the idealised `-inf` mask the spec describes —
then the attention output at position `i` is bit-for-bit independent of
any tokens appended after `i`. -/
theorem c1_causal_idealized (W : AttnParams) (xs ys : List ℝ) (i : Nat)
    (h : i < xs.length) :
    attn_out_causal W (xs ++ ys) i = attn_out_causal W xs i := by
  simp only [attn_out_causal]
  rw [List.take_append_of_le_length (by omega), List.getD_append xs ys 0 i h]

/-- C1 (counterexample to the claim as stated): the implemented mask fills
future scores with the finite value `-1e9`, whose softmax weight is
strictly positive in exact arithmetic, so appending a token changes the
attention output at position 0: with identity projections the output at
position 0 is 0 for the sequence `[0]` but strictly positive for
`[0, 1]`. -/
theorem c1_counterexample :
    attn_out W0 [(0 : ℝ), 1] 0 ≠ attn_out W0 [(0 : ℝ)] 0 := by
  have h1 : attn_out W0 [(0 : ℝ)] 0 = 0 := by
    simp [attn_out, scoresRow, attnValues, softmaxRow, create_causal_mask, W0,
      List.range_succ, List.range_zero, Real.exp_zero, Real.sqrt_one]
  have hs : scoresRow W0 [(0 : ℝ), 1] 0 = [0, -(10 ^ 9 : ℝ)] := by
    simp [scoresRow, create_causal_mask, W0, List.range_succ, List.range_zero, Real.sqrt_one]
  have hsm : softmaxRow [0, -(10 ^ 9 : ℝ)] =
      [1 / (1 + Real.exp (-(10 ^ 9 : ℝ))),
       Real.exp (-(10 ^ 9 : ℝ)) / (1 + Real.exp (-(10 ^ 9 : ℝ)))] := by
    simp [softmaxRow, Real.exp_zero]
  have h2 : 0 < attn_out W0 [(0 : ℝ), 1] 0 := by
    rw [attn_out, hs, hsm]
    have hv : attnValues W0 [(0 : ℝ), 1] = [0, 1] := by simp [attnValues, W0]
    rw [hv]
    have hEpos : 0 < Real.exp (-(10 ^ 9 : ℝ)) := Real.exp_pos _
    simp only [List.zip_cons_cons, List.zip_nil_right, List.map_cons, List.map_nil,
      List.sum_cons, List.sum_nil, W0]
    have hrw : (1 : ℝ) * (1 / (1 + Real.exp (-(10 ^ 9 : ℝ))) * 0 +
        (Real.exp (-(10 ^ 9 : ℝ)) / (1 + Real.exp (-(10 ^ 9 : ℝ))) * 1 + 0)) + 0 =
        Real.exp (-(10 ^ 9 : ℝ)) / (1 + Real.exp (-(10 ^ 9 : ℝ))) := by ring
    rw [hrw]
    exact div_pos hEpos (by linarith)
  intro hEq
  rw [h1] at hEq
  exact absurd hEq (ne_of_gt h2)

/-- Witness for the amended C1. -/
theorem c1_witness :
    0 < ([(0 : ℝ), 1] : List ℝ).length ∧
    attn_out_causal W0 ([(0 : ℝ), 1] ++ [5]) 0 = attn_out_causal W0 [(0 : ℝ), 1] 0 :=
  ⟨by norm_num, c1_causal_idealized W0 [(0 : ℝ), 1] [5] 0 (by norm_num)⟩

/-- Witness for the amended C2. -/
theorem c2_witness :
    (TokWF tok0 ∧ ∀ w ∈ pysplit (preprocess_text "Hi, hi".toList),
        (lookupWord tok0 w).isSome) ∧
    decode tok0 (encode tok0 "Hi, hi".toList false) true =
      cleanupPunct (preprocess_text "Hi, hi".toList) :=
  ⟨⟨by unfold TokWF; decide, by decide⟩,
   c2_roundtrip_amended tok0 "Hi, hi".toList (by unfold TokWF; decide) (by decide)⟩

end DieAI

